import Mathlib

/-!
Verification of the streak/completion state machine and
trend-aggregation engine, shallowly embedded from the Python sources
`src/habit.py`, `src/tracker.py` and `src/analyse.py`.

Conventions of the embedding:
* Calendar dates used by the Streak Engine and the daily/weekly trends are
  represented by an integer day number (days since a fixed epoch).  The epoch
  is chosen to fall on a Monday, so that the Python `date.weekday()` value
  (Monday = 0) corresponds to `d % 7`.  Differences of `datetime.date`
  values (`timedelta`) become integer differences, and `timedelta(days=k)`
  becomes the integer `k`.
* The implicit Python `date.today()` is passed explicitly as a `today`
  parameter, making every operation a pure function of its inputs.
* The mutation of a `Habit` object becomes a function returning the updated
  record; operations that print a status message return that signal as an
  explicit result value.
* Python integers on habit counters (`streak`, `streak_saves`,
  `longest_streak`) are non-negative in every reachable state (they are
  created at 0, only incremented/decremented under guards, and the edit
  path validates `>= 0`), and the spec data model declares them
  non-negative, so they are embedded as `Nat`.
-/

/-- The `Habit` record of `src/habit.py` (constructor, lines 5–11).
`periodicity` is an arbitrary string in the source (only ever compared with
the three literals), `last_completed` is `None` or a date. -/
structure Habit where
  name : String
  periodicity : String
  streak : Nat
  last_completed : Option Int
  streak_saves : Nat
  longest_streak : Nat
deriving DecidableEq

/-- Signal produced by `Habit.increment` (the two print branches). -/
inductive IncrementResult
  | incremented
  | alreadyCompleted
deriving DecidableEq

/-- Signal produced by `Habit.streak_save` (the two print branches). -/
inductive StreakSaveResult
  | saved
  | noSavesAvailable
deriving DecidableEq

/-- `Habit.get_period_delta`, src/habit.py lines 24–35: daily → 1 day,
weekly → `timedelta(weeks=1)` = 7 days, monthly → 30 days, anything else
falls through to 1 day. -/
def Habit.get_period_delta (h : Habit) : Int :=
  if h.periodicity = "daily" then 1
  else if h.periodicity = "weekly" then 7
  else if h.periodicity = "monthly" then 30
  else 1

/-- The guard of `Habit.increment`, src/habit.py line 54:
`self.last_completed is None or (today - self.last_completed) >= self.get_period_delta()`. -/
def Habit.completionDue (h : Habit) (today : Int) : Bool :=
  match h.last_completed with
  | none => true
  | some lc => decide (Habit.get_period_delta h ≤ today - lc)

/-- `Habit.increment`, src/habit.py lines 48–61.  When the guard holds the
streak is incremented, `last_completed` is set to today, and
`longest_streak` is raised to the new streak when exceeded; otherwise the
habit is unchanged and the call reports "already completed". -/
def Habit.increment (h : Habit) (today : Int) : Habit × IncrementResult :=
  if h.completionDue today then
    ({ h with
        streak := h.streak + 1,
        last_completed := some today,
        longest_streak :=
          if h.streak + 1 > h.longest_streak then h.streak + 1 else h.longest_streak },
     IncrementResult.incremented)
  else
    (h, IncrementResult.alreadyCompleted)

/-- `Habit.streak_reset`, src/habit.py lines 37–46: if `last_completed` is
set and strictly more than one period has elapsed, the streak is reset
to 0; otherwise nothing happens. -/
def Habit.streak_reset (h : Habit) (today : Int) : Habit :=
  match h.last_completed with
  | none => h
  | some lc =>
      if today - lc > Habit.get_period_delta h then { h with streak := 0 } else h

/-- `Habit.streak_save`, src/habit.py lines 63–74: consume one grace token
if available, refreshing `last_completed`; otherwise report that no saves
are available. -/
def Habit.streak_save (h : Habit) (today : Int) : Habit × StreakSaveResult :=
  if h.streak_saves > 0 then
    ({ h with streak_saves := h.streak_saves - 1, last_completed := some today },
     StreakSaveResult.saved)
  else
    (h, StreakSaveResult.noSavesAvailable)

/-- `Habit.change_periodicity`, src/habit.py lines 13–22: update only when
the new value is one of the three allowed literals. -/
def Habit.change_periodicity (h : Habit) (new_periodicity : String) : Habit :=
  if new_periodicity ∈ ["daily", "weekly", "monthly"] then
    { h with periodicity := new_periodicity }
  else h

/-- The periodicity block of `Tracker.edit_habit`, src/tracker.py lines
131–136: the periodicity is updated when the supplied value is one of the
three literals, otherwise it is left alone. -/
def Tracker.apply_periodicity (h : Habit) (new_periodicity : Option String) : Habit :=
  match new_periodicity with
  | some p => if p ∈ ["daily", "weekly", "monthly"] then { h with periodicity := p } else h
  | none => h

/-- The longest-streak block of `Tracker.edit_habit`, src/tracker.py lines
138–143: `longest_streak` is updated when the supplied value is an integer
`≥ 0` (embedded as `Option Int`, applied via `Int.toNat`). -/
def Tracker.apply_longest (h : Habit) (new_longest_streak : Option Int) : Habit :=
  match new_longest_streak with
  | some v => if 0 ≤ v then { h with longest_streak := v.toNat } else h
  | none => h

/-- The two sequential update blocks of `Tracker.edit_habit` that run after
the rename block (src/tracker.py lines 131–143). -/
def Tracker.edit_habit_rest (h : Habit) (new_periodicity : Option String)
    (new_longest_streak : Option Int) : Habit :=
  Tracker.apply_longest (Tracker.apply_periodicity h new_periodicity) new_longest_streak

/-- `Tracker.edit_habit`, src/tracker.py lines 109–147, modelled at the
level of the fields of the habit record.  A truthy `new_name` triggers a rename;
a name collision (`sqlite3.IntegrityError`, modelled by the
`rename_conflict` flag) returns early with the record unchanged, skipping
the periodicity and longest-streak updates.  The Python guard
`if new_name:` treats the empty string as falsy, so an empty new name
skips only the rename block. -/
def Tracker.edit_habit (h : Habit) (new_name : Option String) (rename_conflict : Bool)
    (new_periodicity : Option String) (new_longest_streak : Option Int) : Habit :=
  match new_name with
  | some n =>
      if n = "" then Tracker.edit_habit_rest h new_periodicity new_longest_streak
      else if rename_conflict then h
      else Tracker.edit_habit_rest { h with name := n } new_periodicity new_longest_streak
  | none => Tracker.edit_habit_rest h new_periodicity new_longest_streak

/-- Every periodicity maps to a positive period length. -/
theorem Habit.get_period_delta_pos (h : Habit) : 0 < Habit.get_period_delta h := by
  unfold Habit.get_period_delta
  split_ifs <;> norm_num

/-- The lapse check is the identity when `last_completed` is unset. -/
theorem Habit.streak_reset_none (h : Habit) (today : Int)
    (hlc : h.last_completed = none) : h.streak_reset today = h := by
  unfold Habit.streak_reset
  rw [hlc]

/-- The lapse check written out when `last_completed` is set. -/
theorem Habit.streak_reset_some (h : Habit) (today : Int) (lc : Int)
    (hlc : h.last_completed = some lc) :
    h.streak_reset today =
      if today - lc > Habit.get_period_delta h then { h with streak := 0 } else h := by
  unfold Habit.streak_reset
  rw [hlc]

/-- An increment in the eligible case, written out. -/
theorem Habit.increment_of_due (h : Habit) (today : Int)
    (hb : h.completionDue today = true) :
    h.increment today =
      ({ h with
          streak := h.streak + 1,
          last_completed := some today,
          longest_streak :=
            if h.streak + 1 > h.longest_streak then h.streak + 1 else h.longest_streak },
       IncrementResult.incremented) := by
  simp [Habit.increment, hb]

/-- An increment in the ineligible case is a no-op with an
already-completed signal. -/
theorem Habit.increment_of_not_due (h : Habit) (today : Int)
    (hb : h.completionDue today = false) :
    h.increment today = (h, IncrementResult.alreadyCompleted) := by
  simp [Habit.increment, hb]

/-- Claim C1: for every habit and every call of `Habit.increment`, if
`last_completed` is unset or at least one period has elapsed since it, the
streak is incremented by exactly 1, `last_completed` becomes today, and
`longest_streak` becomes `max longest_streak streak` (with the new streak);
otherwise the call signals already-completed and changes nothing. -/
theorem increment_spec (h : Habit) (today : Int) :
    ((h.last_completed = none ∨
        ∃ lc, h.last_completed = some lc ∧ Habit.get_period_delta h ≤ today - lc) →
      (h.increment today).2 = IncrementResult.incremented ∧
      (h.increment today).1.streak = h.streak + 1 ∧
      (h.increment today).1.last_completed = some today ∧
      (h.increment today).1.longest_streak = max h.longest_streak (h.streak + 1) ∧
      (h.increment today).1.name = h.name ∧
      (h.increment today).1.periodicity = h.periodicity ∧
      (h.increment today).1.streak_saves = h.streak_saves) ∧
    ((∃ lc, h.last_completed = some lc ∧ today - lc < Habit.get_period_delta h) →
      (h.increment today).1 = h ∧ (h.increment today).2 = IncrementResult.alreadyCompleted) := by
  constructor
  · intro hdue
    have hb : h.completionDue today = true := by
      unfold Habit.completionDue
      rcases hdue with h0 | ⟨lc, hlc, hge⟩
      · rw [h0]
      · rw [hlc]
        exact decide_eq_true hge
    rw [Habit.increment_of_due h today hb]
    refine ⟨rfl, rfl, rfl, ?_, rfl, rfl, rfl⟩
    show (if h.streak + 1 > h.longest_streak then h.streak + 1 else h.longest_streak) =
      max h.longest_streak (h.streak + 1)
    split_ifs <;> omega
  · rintro ⟨lc, hlc, hlt⟩
    have hb : h.completionDue today = false := by
      unfold Habit.completionDue
      rw [hlc]
      exact decide_eq_false (by omega)
    rw [Habit.increment_of_not_due h today hb]
    exact ⟨rfl, rfl⟩

/-- Claim C1 witness: concrete first completion of a fresh habit. -/
theorem increment_spec_witness :
    (Habit.increment ⟨"read", "daily", 2, none, 0, 5⟩ 7).2 = IncrementResult.incremented ∧
    (Habit.increment ⟨"read", "daily", 2, none, 0, 5⟩ 7).1.streak = 2 + 1 ∧
    (Habit.increment ⟨"read", "daily", 2, none, 0, 5⟩ 7).1.last_completed = some 7 ∧
    (Habit.increment ⟨"read", "daily", 2, none, 0, 5⟩ 7).1.longest_streak = max 5 (2 + 1) ∧
    (Habit.increment ⟨"read", "daily", 2, none, 0, 5⟩ 7).1.name = "read" ∧
    (Habit.increment ⟨"read", "daily", 2, none, 0, 5⟩ 7).1.periodicity = "daily" ∧
    (Habit.increment ⟨"read", "daily", 2, none, 0, 5⟩ 7).1.streak_saves = 0 :=
  (increment_spec ⟨"read", "daily", 2, none, 0, 5⟩ 7).1 (Or.inl rfl)

/-- Claim C2 counterexample: the edit operation can set `longest_streak`
below the current streak, so it does not preserve the invariant
`longest_streak ≥ streak`.  Starting from a habit with streak 5 and
longest streak 5, editing the longest streak to 0 leaves streak 5 and
longest streak 0. -/
theorem edit_habit_breaks_invariant :
    (Habit.mk "run" "daily" 5 (some 0) 0 5).streak ≤
        (Habit.mk "run" "daily" 5 (some 0) 0 5).longest_streak ∧
    ¬ ((Tracker.edit_habit (Habit.mk "run" "daily" 5 (some 0) 0 5) none false none
          (some 0)).streak ≤
       (Tracker.edit_habit (Habit.mk "run" "daily" 5 (some 0) 0 5) none false none
          (some 0)).longest_streak) := by
  decide

/-- The periodicity edit block never touches the streak counters. -/
theorem Tracker.apply_periodicity_streak (h : Habit) (np : Option String) :
    (Tracker.apply_periodicity h np).streak = h.streak := by
  rcases np with _ | p
  · rfl
  · simp only [Tracker.apply_periodicity]
    split_ifs <;> rfl

/-- The periodicity edit block never touches the longest streak. -/
theorem Tracker.apply_periodicity_longest (h : Habit) (np : Option String) :
    (Tracker.apply_periodicity h np).longest_streak = h.longest_streak := by
  rcases np with _ | p
  · rfl
  · simp only [Tracker.apply_periodicity]
    split_ifs <;> rfl

/-- The longest-streak edit block never touches the streak. -/
theorem Tracker.apply_longest_streak (h : Habit) (nls : Option Int) :
    (Tracker.apply_longest h nls).streak = h.streak := by
  rcases nls with _ | v
  · rfl
  · simp only [Tracker.apply_longest]
    split_ifs <;> rfl

/-- Claim C2 (amended): for every habit satisfying
`streak ≤ longest_streak`, the operations `increment`, `streak_reset`,
`streak_save` and `change_periodicity` preserve the invariant
unconditionally, and `edit_habit` preserves it provided any accepted new
longest-streak value (a supplied integer `≥ 0`) is at least the current
streak. -/
theorem operations_preserve_invariant (h : Habit) (today : Int) (np : String)
    (new_name : Option String) (conflict : Bool) (new_per : Option String)
    (new_ls : Option Int)
    (hinv : h.streak ≤ h.longest_streak)
    (hls : ∀ v, new_ls = some v → 0 ≤ v → (h.streak : Int) ≤ v) :
    (h.increment today).1.streak ≤ (h.increment today).1.longest_streak ∧
    (h.streak_reset today).streak ≤ (h.streak_reset today).longest_streak ∧
    (h.streak_save today).1.streak ≤ (h.streak_save today).1.longest_streak ∧
    (h.change_periodicity np).streak ≤ (h.change_periodicity np).longest_streak ∧
    (Tracker.edit_habit h new_name conflict new_per new_ls).streak ≤
      (Tracker.edit_habit h new_name conflict new_per new_ls).longest_streak := by
  refine ⟨?_, ?_, ?_, ?_, ?_⟩
  · cases hb : h.completionDue today
    · rw [Habit.increment_of_not_due h today hb]
      exact hinv
    · rw [Habit.increment_of_due h today hb]
      show h.streak + 1 ≤ if h.streak + 1 > h.longest_streak then h.streak + 1 else h.longest_streak
      split_ifs <;> omega
  · rcases hl : h.last_completed with _ | lc
    · rw [Habit.streak_reset_none h today hl]
      exact hinv
    · rw [Habit.streak_reset_some h today lc hl]
      split_ifs
      · exact Nat.zero_le _
      · exact hinv
  · unfold Habit.streak_save
    split_ifs <;> exact hinv
  · unfold Habit.change_periodicity
    split_ifs <;> exact hinv
  · have hrest : ∀ h0 : Habit, h0.streak = h.streak → h.streak ≤ h0.longest_streak →
        (Tracker.edit_habit_rest h0 new_per new_ls).streak ≤
          (Tracker.edit_habit_rest h0 new_per new_ls).longest_streak := by
      intro h0 hs hl
      unfold Tracker.edit_habit_rest
      rw [Tracker.apply_longest_streak, Tracker.apply_periodicity_streak, hs]
      rcases new_ls with _ | v
      · simp only [Tracker.apply_longest]
        rw [Tracker.apply_periodicity_longest]
        exact hl
      · simp only [Tracker.apply_longest]
        split_ifs with hv
        · have hsv : (h.streak : Int) ≤ v := hls v rfl hv
          show h.streak ≤ v.toNat
          omega
        · rw [Tracker.apply_periodicity_longest]
          exact hl
    rcases new_name with _ | n
    · simp only [Tracker.edit_habit]
      exact hrest h rfl hinv
    · simp only [Tracker.edit_habit]
      split_ifs
      · exact hrest h rfl hinv
      · exact hinv
      · exact hrest { h with name := n } rfl hinv

/-- Claim C2 witness: the amended invariant preservation applied to a
concrete habit with an accepted longest-streak edit value of 7 ≥ streak 3. -/
theorem operations_preserve_invariant_witness :
    (Habit.increment ⟨"walk", "weekly", 3, some 2, 1, 4⟩ 10).1.streak ≤
      (Habit.increment ⟨"walk", "weekly", 3, some 2, 1, 4⟩ 10).1.longest_streak ∧
    (Habit.streak_reset ⟨"walk", "weekly", 3, some 2, 1, 4⟩ 10).streak ≤
      (Habit.streak_reset ⟨"walk", "weekly", 3, some 2, 1, 4⟩ 10).longest_streak ∧
    (Habit.streak_save ⟨"walk", "weekly", 3, some 2, 1, 4⟩ 10).1.streak ≤
      (Habit.streak_save ⟨"walk", "weekly", 3, some 2, 1, 4⟩ 10).1.longest_streak ∧
    (Habit.change_periodicity ⟨"walk", "weekly", 3, some 2, 1, 4⟩ "daily").streak ≤
      (Habit.change_periodicity ⟨"walk", "weekly", 3, some 2, 1, 4⟩ "daily").longest_streak ∧
    (Tracker.edit_habit ⟨"walk", "weekly", 3, some 2, 1, 4⟩ (some "jog") false
        (some "daily") (some 7)).streak ≤
      (Tracker.edit_habit ⟨"walk", "weekly", 3, some 2, 1, 4⟩ (some "jog") false
        (some "daily") (some 7)).longest_streak :=
  operations_preserve_invariant ⟨"walk", "weekly", 3, some 2, 1, 4⟩ 10 "daily"
    (some "jog") false (some "daily") (some 7) (by decide)
    (by
      intro v hv _
      injection hv with he
      subst he
      decide)

/-- The increment operation never changes the periodicity. -/
theorem Habit.increment_periodicity (h : Habit) (today : Int) :
    ((h.increment today).1).periodicity = h.periodicity := by
  cases hb : h.completionDue today
  · rw [Habit.increment_of_not_due h today hb]
  · rw [Habit.increment_of_due h today hb]

/-- The increment operation never changes the period length. -/
theorem Habit.get_period_delta_increment (h : Habit) (today : Int) :
    Habit.get_period_delta (h.increment today).1 = Habit.get_period_delta h := by
  unfold Habit.get_period_delta
  rw [Habit.increment_periodicity]

/-- Claim C3: calling `Habit.increment` twice with the same `today` is
idempotent: whatever the first call did, the second call signals
already-completed and leaves the state exactly as it was after the first
call, for every habit whose periodicity is daily, weekly or monthly. -/
theorem increment_idempotent (h : Habit) (today : Int)
    (hp : h.periodicity ∈ ["daily", "weekly", "monthly"]) :
    Habit.increment (h.increment today).1 today =
      ((h.increment today).1, IncrementResult.alreadyCompleted) := by
  have hpos := Habit.get_period_delta_pos h
  cases hb : h.completionDue today
  · have h1 : (h.increment today).1 = h := by
      rw [Habit.increment_of_not_due h today hb]
    rw [h1]
    exact Habit.increment_of_not_due h today hb
  · have h1lc : ((h.increment today).1).last_completed = some today := by
      rw [Habit.increment_of_due h today hb]
    have hb2 : Habit.completionDue (h.increment today).1 today = false := by
      unfold Habit.completionDue
      rw [h1lc, Habit.get_period_delta_increment]
      exact decide_eq_false (by omega)
    exact Habit.increment_of_not_due _ today hb2

/-- Claim C3 witness: a daily habit completed today cannot be completed
again today. -/
theorem increment_idempotent_witness :
    Habit.increment (Habit.increment ⟨"swim", "daily", 0, none, 0, 0⟩ 3).1 3 =
      ((Habit.increment ⟨"swim", "daily", 0, none, 0, 0⟩ 3).1,
        IncrementResult.alreadyCompleted) :=
  increment_idempotent ⟨"swim", "daily", 0, none, 0, 0⟩ 3 (by decide)

/-- Claim C4: `Habit.streak_reset` zeroes the streak exactly when
`last_completed` is set and strictly more than one period has elapsed, is a
no-op otherwise (in particular when `last_completed` is unset), and never
changes `longest_streak`, `last_completed`, `streak_saves` or
`periodicity`. -/
theorem streak_reset_spec (h : Habit) (today : Int) :
    (h.last_completed = none → h.streak_reset today = h) ∧
    (∀ lc, h.last_completed = some lc →
      ((Habit.get_period_delta h < today - lc → (h.streak_reset today).streak = 0) ∧
       (today - lc ≤ Habit.get_period_delta h → h.streak_reset today = h))) ∧
    (h.streak_reset today).longest_streak = h.longest_streak ∧
    (h.streak_reset today).last_completed = h.last_completed ∧
    (h.streak_reset today).streak_saves = h.streak_saves ∧
    (h.streak_reset today).periodicity = h.periodicity ∧
    (h.streak_reset today).name = h.name := by
  refine ⟨?_, ?_, ?_, ?_, ?_, ?_, ?_⟩
  · intro h0
    rw [Habit.streak_reset_none h today h0]
  · intro lc hl
    rw [Habit.streak_reset_some h today lc hl]
    constructor
    · intro hgt
      rw [if_pos (by omega)]
    · intro hle
      rw [if_neg (by omega)]
  · rcases hl : h.last_completed with _ | lc
    · rw [Habit.streak_reset_none h today hl]
    · rw [Habit.streak_reset_some h today lc hl]
      split_ifs <;> rfl
  · rcases hl : h.last_completed with _ | lc
    · rw [Habit.streak_reset_none h today hl]
      exact hl
    · rw [Habit.streak_reset_some h today lc hl]
      split_ifs <;> exact hl
  · rcases hl : h.last_completed with _ | lc
    · rw [Habit.streak_reset_none h today hl]
    · rw [Habit.streak_reset_some h today lc hl]
      split_ifs <;> rfl
  · rcases hl : h.last_completed with _ | lc
    · rw [Habit.streak_reset_none h today hl]
    · rw [Habit.streak_reset_some h today lc hl]
      split_ifs <;> rfl
  · rcases hl : h.last_completed with _ | lc
    · rw [Habit.streak_reset_none h today hl]
    · rw [Habit.streak_reset_some h today lc hl]
      split_ifs <;> rfl

/-- Claim C4 witness: a lapsed daily habit (last completed 5 days ago) is
reset to streak 0 with every other field untouched. -/
theorem streak_reset_spec_witness :
    (Habit.streak_reset ⟨"row", "daily", 4, some 0, 2, 6⟩ 5).streak = 0 ∧
    (Habit.streak_reset ⟨"row", "daily", 4, some 0, 2, 6⟩ 5).longest_streak = 6 ∧
    (Habit.streak_reset ⟨"row", "daily", 4, some 0, 2, 6⟩ 5).last_completed = some 0 ∧
    (Habit.streak_reset ⟨"row", "daily", 4, some 0, 2, 6⟩ 5).streak_saves = 2 ∧
    (Habit.streak_reset ⟨"row", "daily", 4, some 0, 2, 6⟩ 5).periodicity = "daily" := by
  have hs := streak_reset_spec ⟨"row", "daily", 4, some 0, 2, 6⟩ 5
  exact ⟨(hs.2.1 0 rfl).1 (by decide), hs.2.2.1, hs.2.2.2.1, hs.2.2.2.2.1,
    hs.2.2.2.2.2.1⟩

/-- Claim C8: `Habit.streak_save` with a positive token count decrements
`streak_saves`, refreshes `last_completed` to today, leaves the streak and
longest streak untouched and signals success; with zero tokens it signals
no-saves-available and mutates nothing. -/
theorem streak_save_spec (h : Habit) (today : Int) :
    (0 < h.streak_saves →
      (h.streak_save today).2 = StreakSaveResult.saved ∧
      (h.streak_save today).1.streak_saves = h.streak_saves - 1 ∧
      (h.streak_save today).1.last_completed = some today ∧
      (h.streak_save today).1.streak = h.streak ∧
      (h.streak_save today).1.longest_streak = h.longest_streak ∧
      (h.streak_save today).1.periodicity = h.periodicity ∧
      (h.streak_save today).1.name = h.name) ∧
    (h.streak_saves = 0 →
      h.streak_save today = (h, StreakSaveResult.noSavesAvailable)) := by
  constructor
  · intro hpos
    unfold Habit.streak_save
    rw [if_pos hpos]
    exact ⟨rfl, rfl, rfl, rfl, rfl, rfl, rfl⟩
  · intro hzero
    unfold Habit.streak_save
    rw [if_neg (by omega)]

/-- Claim C8 witness: one grace token is consumed and `last_completed`
becomes today while the streak stays 4. -/
theorem streak_save_spec_witness :
    (Habit.streak_save ⟨"cook", "weekly", 4, some 1, 2, 9⟩ 12).2 = StreakSaveResult.saved ∧
    (Habit.streak_save ⟨"cook", "weekly", 4, some 1, 2, 9⟩ 12).1.streak_saves = 2 - 1 ∧
    (Habit.streak_save ⟨"cook", "weekly", 4, some 1, 2, 9⟩ 12).1.last_completed = some 12 ∧
    (Habit.streak_save ⟨"cook", "weekly", 4, some 1, 2, 9⟩ 12).1.streak = 4 ∧
    (Habit.streak_save ⟨"cook", "weekly", 4, some 1, 2, 9⟩ 12).1.longest_streak = 9 ∧
    (Habit.streak_save ⟨"cook", "weekly", 4, some 1, 2, 9⟩ 12).1.periodicity = "weekly" ∧
    (Habit.streak_save ⟨"cook", "weekly", 4, some 1, 2, 9⟩ 12).1.name = "cook" :=
  (streak_save_spec ⟨"cook", "weekly", 4, some 1, 2, 9⟩ 12).1 (by decide)

/-- Claim C9: the period length is exactly 1 day for daily habits, 7 days
for weekly habits and 30 days for monthly habits. -/
theorem get_period_delta_spec (h : Habit) :
    (h.periodicity = "daily" → Habit.get_period_delta h = 1) ∧
    (h.periodicity = "weekly" → Habit.get_period_delta h = 7) ∧
    (h.periodicity = "monthly" → Habit.get_period_delta h = 30) := by
  refine ⟨fun hd => ?_, fun hw => ?_, fun hm => ?_⟩
  · unfold Habit.get_period_delta
    rw [hd]
    decide
  · unfold Habit.get_period_delta
    rw [hw]
    decide
  · unfold Habit.get_period_delta
    rw [hm]
    decide

/-- Claim C9 witness: the three periodicities evaluated on concrete
habits. -/
theorem get_period_delta_spec_witness :
    Habit.get_period_delta ⟨"a", "daily", 0, none, 0, 0⟩ = 1 ∧
    Habit.get_period_delta ⟨"b", "weekly", 0, none, 0, 0⟩ = 7 ∧
    Habit.get_period_delta ⟨"c", "monthly", 0, none, 0, 0⟩ = 30 :=
  ⟨(get_period_delta_spec ⟨"a", "daily", 0, none, 0, 0⟩).1 rfl,
   (get_period_delta_spec ⟨"b", "weekly", 0, none, 0, 0⟩).2.1 rfl,
   (get_period_delta_spec ⟨"c", "monthly", 0, none, 0, 0⟩).2.2 rfl⟩

/-- Claim C10: any periodicity value outside the three recognised literals
falls through to the daily period of 1 day. -/
theorem get_period_delta_default (h : Habit)
    (hp : h.periodicity ∉ ["daily", "weekly", "monthly"]) :
    Habit.get_period_delta h = 1 := by
  simp only [List.mem_cons, List.mem_singleton, not_or] at hp
  unfold Habit.get_period_delta
  rw [if_neg hp.1, if_neg hp.2.1, if_neg hp.2.2.1]

/-- Claim C10 witness: an unrecognised periodicity string is treated as
daily. -/
theorem get_period_delta_default_witness :
    Habit.get_period_delta ⟨"d", "yearly", 0, none, 0, 0⟩ = 1 :=
  get_period_delta_default ⟨"d", "yearly", 0, none, 0, 0⟩ (by decide)

/-!
Trend Aggregator, embedded from `src/analyse.py`.  A Python `dict`
preserves insertion order, so an ordered mapping is embedded as a list of
key–value pairs without duplicate keys.
-/

/-- `Analyse.calculate_daily_trend`, src/analyse.py lines 24–42, for an
existing habit: the loop `for day in (start_date + timedelta(n) for n in
range(num_days)): trend[day] = 1 if day in history else 0` inserts the
`num_days` consecutive days ending at the reference date, oldest first. -/
def calculate_daily_trend (history : List Int) (num_days : Nat) (today : Int) :
    List (Int × Nat) :=
  let start_date : Int := today - ((num_days : Int) - 1)
  (List.range num_days).map
    (fun (n : Nat) =>
      (start_date + (n : Int),
        if history.contains (start_date + (n : Int)) then 1 else 0))

/-- One `trend[key] += 1` step on a `defaultdict(int)`: an existing key is
incremented in place, a missing key is appended at the end (Python dicts
preserve insertion order and a missing key starts from 0). -/
def bump {κ : Type} [DecidableEq κ] : List (κ × Nat) → κ → List (κ × Nat)
  | [], k => [(k, 1)]
  | (k0, v) :: rest, k =>
      if k0 = k then (k0, v + 1) :: rest else (k0, v) :: bump rest k

/-- The value a counting dict associates to a key (0 when absent). -/
def lookupV {κ : Type} [DecidableEq κ] : List (κ × Nat) → κ → Nat
  | [], _ => 0
  | (k0, v) :: rest, k => if k0 = k then v else lookupV rest k

/-- The keys of a counting dict, in insertion order. -/
def keysOf {κ : Type} (l : List (κ × Nat)) : List κ := l.map Prod.fst

/-- The counting loop `for d in history: if p d: trend[f d] += 1` of the
weekly and monthly aggregators. -/
def tally {α κ : Type} [DecidableEq κ] (p : α → Bool) (f : α → κ)
    (history : List α) (acc : List (κ × Nat)) : List (κ × Nat) :=
  history.foldl (fun trend d => if p d then bump trend (f d) else trend) acc

/-- The Python `date.weekday()` value (Monday = 0) in the day-number model whose
epoch is a Monday. -/
def weekday (d : Int) : Int := d % 7

/-- `completion_date - timedelta(days=completion_date.weekday())`,
src/analyse.py line 62: the Monday of the week of the completion. -/
def week_start (d : Int) : Int := d - weekday d

/-- `Analyse.calculate_weekly_trend`, src/analyse.py lines 44–64, for an
existing habit: completions inside the window
`[today - timedelta(weeks=num_weeks), today]` are bucketed by the Monday of
their week in a `defaultdict(int)`, and `dict(trend)` is returned in
insertion order (unsorted). -/
def calculate_weekly_trend (history : List Int) (num_weeks : Nat) (today : Int) :
    List (Int × Nat) :=
  let start_date : Int := today - 7 * (num_weeks : Int)
  tally (fun d => decide (start_date ≤ d ∧ d ≤ today)) week_start history []

/-- Claim C5: the daily trend has exactly `num_days` entries, its `i`-th
key is the `i`-th of the `num_days` consecutive dates ending at the
reference date (oldest first, the last key being the reference date), and
its value is 1 when that date occurs in the history and 0 otherwise. -/
theorem daily_trend_spec (history : List Int) (num_days : Nat) (today : Int)
    (hn : 1 ≤ num_days) :
    (calculate_daily_trend history num_days today).length = num_days ∧
    (∀ i (hi : i < (calculate_daily_trend history num_days today).length),
      ((calculate_daily_trend history num_days today).get ⟨i, hi⟩).1 =
        today - ((num_days : Int) - 1) + i ∧
      ((calculate_daily_trend history num_days today).get ⟨i, hi⟩).2 =
        (if history.contains (today - ((num_days : Int) - 1) + i) then 1 else 0)) ∧
    (∀ hlast : num_days - 1 < (calculate_daily_trend history num_days today).length,
      ((calculate_daily_trend history num_days today).get ⟨num_days - 1, hlast⟩).1 =
        today) := by
  have hkey : ∀ i (hi : i < (calculate_daily_trend history num_days today).length),
      (calculate_daily_trend history num_days today).get ⟨i, hi⟩ =
        (today - ((num_days : Int) - 1) + i,
          if history.contains (today - ((num_days : Int) - 1) + i) then 1 else 0) := by
    intro i hi
    simp only [calculate_daily_trend, List.get_eq_getElem] at hi ⊢
    rw [List.getElem_map, List.getElem_range]
  refine ⟨by simp only [calculate_daily_trend, List.length_map, List.length_range],
    fun i hi => by rw [hkey i hi]; exact ⟨rfl, rfl⟩, ?_⟩
  intro hlast
  rw [hkey _ hlast]
  show today - ((num_days : Int) - 1) + ((num_days - 1 : Nat) : Int) = today
  omega

/-- Claim C5 witness: three days of history `[5, 3]` ending at day 5. -/
theorem daily_trend_spec_witness :
    (calculate_daily_trend [5, 3] 3 5).length = 3 ∧
    ((calculate_daily_trend [5, 3] 3 5).get ⟨3 - 1, by decide⟩).1 = 5 := by
  have hs := daily_trend_spec [5, 3] 3 5 (by decide)
  exact ⟨hs.1, hs.2.2 (by decide)⟩

/-- Bumping a key changes only the count of that key, raising it by one. -/
theorem lookupV_bump {κ : Type} [DecidableEq κ] (l : List (κ × Nat)) (k k2 : κ) :
    lookupV (bump l k) k2 = if k2 = k then lookupV l k + 1 else lookupV l k2 := by
  induction l with
  | nil =>
      by_cases h : k2 = k
      · subst h
        simp [bump, lookupV]
      · simp [bump, lookupV, h, Ne.symm h]
  | cons hd tl ih =>
      obtain ⟨k0, v⟩ := hd
      by_cases h0 : k0 = k
      · subst h0
        simp only [bump, if_pos rfl]
        by_cases h2 : k2 = k0
        · subst h2
          simp [lookupV]
        · simp [lookupV, h2, Ne.symm h2]
      · simp only [bump, if_neg h0]
        by_cases h2 : k2 = k0
        · subst h2
          simp [lookupV, h0]
        · simp [lookupV, h2, Ne.symm h2, ih, h0]

/-- Bumping a present key keeps the key list; a missing key is appended. -/
theorem keysOf_bump {κ : Type} [DecidableEq κ] (l : List (κ × Nat)) (k : κ) :
    keysOf (bump l k) = if k ∈ keysOf l then keysOf l else keysOf l ++ [k] := by
  induction l with
  | nil => simp [bump, keysOf]
  | cons hd tl ih =>
      obtain ⟨k0, v⟩ := hd
      by_cases h0 : k0 = k
      · subst h0
        simp [bump, keysOf]
      · have hne : ¬ k = k0 := fun he => h0 he.symm
        simp only [bump, if_neg h0, keysOf, List.map_cons] at ih ⊢
        rw [ih]
        by_cases hm : k ∈ List.map Prod.fst tl
        · rw [if_pos hm, if_pos (by simp [hm])]
        · rw [if_neg hm, if_neg (by simp [hm, hne])]
          simp

/-- A bumped key is present afterwards. -/
theorem mem_keysOf_bump {κ : Type} [DecidableEq κ] (l : List (κ × Nat)) (k : κ) :
    k ∈ keysOf (bump l k) := by
  rw [keysOf_bump]
  split_ifs with h
  · exact h
  · simp

/-- Bumping preserves the other keys. -/
theorem keysOf_subset_bump {κ : Type} [DecidableEq κ] (l : List (κ × Nat)) (k : κ) :
    keysOf l ⊆ keysOf (bump l k) := by
  rw [keysOf_bump]
  split_ifs
  · exact fun x hx => hx
  · exact List.subset_append_left _ _

/-- Bumping never duplicates a key. -/
theorem nodup_keysOf_bump {κ : Type} [DecidableEq κ] (l : List (κ × Nat)) (k : κ)
    (h : (keysOf l).Nodup) : (keysOf (bump l k)).Nodup := by
  rw [keysOf_bump]
  split_ifs with hm
  · exact h
  · simp [List.nodup_append, h, hm]

/-- A present key carries the value `lookupV` reports. -/
theorem mem_of_mem_keysOf {κ : Type} [DecidableEq κ] (l : List (κ × Nat)) (k : κ)
    (h : k ∈ keysOf l) : (k, lookupV l k) ∈ l := by
  induction l with
  | nil => simp [keysOf] at h
  | cons hd tl ih =>
      obtain ⟨k0, v⟩ := hd
      by_cases h0 : k0 = k
      · subst h0
        simp [lookupV]
      · have hk : k ∈ keysOf tl := by
          simp [keysOf] at h ⊢
          rcases h with h | h
          · exact absurd h.symm h0
          · exact h
        simp only [lookupV, if_neg h0]
        exact List.mem_cons_of_mem _ (ih hk)

/-- With duplicate-free keys, membership determines the value. -/
theorem lookupV_eq_of_mem {κ : Type} [DecidableEq κ] (l : List (κ × Nat)) (k : κ)
    (v : Nat) (hnd : (keysOf l).Nodup) (h : (k, v) ∈ l) : lookupV l k = v := by
  induction l with
  | nil => simp at h
  | cons hd tl ih =>
      obtain ⟨k0, v0⟩ := hd
      have hndc : k0 ∉ keysOf tl ∧ (keysOf tl).Nodup := by
        rw [show keysOf ((k0, v0) :: tl) = k0 :: keysOf tl from rfl] at hnd
        exact List.nodup_cons.mp hnd
      rcases List.mem_cons.mp h with he | htl
      · injection he with he1 he2
        subst he1
        subst he2
        simp [lookupV]
      · have h0 : ¬ k0 = k := by
          intro he
          subst he
          exact hndc.1 (by
            simp only [keysOf, List.mem_map]
            exact ⟨(k0, v), htl, rfl⟩)
        simp only [lookupV, if_neg h0]
        exact ih hndc.2 htl

/-- Bumping keeps all counts positive. -/
theorem pos_of_mem_bump {κ : Type} [DecidableEq κ] (l : List (κ × Nat)) (k : κ)
    (hl : ∀ kv ∈ l, 0 < kv.2) : ∀ kv ∈ bump l k, 0 < kv.2 := by
  induction l with
  | nil =>
      intro kv hkv
      simp [bump] at hkv
      subst hkv
      exact Nat.one_pos
  | cons hd tl ih =>
      obtain ⟨k0, v⟩ := hd
      intro kv hkv
      by_cases h0 : k0 = k
      · subst h0
        simp only [bump, if_pos rfl] at hkv
        rcases List.mem_cons.mp hkv with he | htl
        · subst he
          exact Nat.succ_pos _
        · exact hl kv (List.mem_cons_of_mem _ htl)
      · simp only [bump, if_neg h0] at hkv
        rcases List.mem_cons.mp hkv with he | htl
        · subst he
          exact hl _ (List.mem_cons_self _ _)
        · exact ih (fun kv2 hkv2 => hl kv2 (List.mem_cons_of_mem _ hkv2)) kv htl

/-- Unfolding one step of the counting loop. -/
theorem tally_cons {α κ : Type} [DecidableEq κ] (p : α → Bool) (f : α → κ)
    (x : α) (xs : List α) (acc : List (κ × Nat)) :
    tally p f (x :: xs) acc = tally p f xs (if p x then bump acc (f x) else acc) := rfl

/-- After the counting loop, the count of a key has grown by the number of
filtered inputs mapping to it. -/
theorem tally_lookupV {α κ : Type} [DecidableEq κ] (p : α → Bool) (f : α → κ) :
    ∀ (xs : List α) (acc : List (κ × Nat)) (k : κ),
      lookupV (tally p f xs acc) k =
        lookupV acc k + (xs.filter (fun d => p d && decide (f d = k))).length := by
  intro xs
  induction xs with
  | nil => intro acc k; simp [tally]
  | cons x xs ih =>
      intro acc k
      rw [tally_cons, List.filter_cons, ih]
      by_cases hp : p x
      · rw [if_pos hp]
        by_cases hfk : f x = k
        · subst hfk
          simp [lookupV_bump, hp] <;> omega
        · simp [lookupV_bump, hfk, Ne.symm hfk]
      · rw [if_neg hp]
        simp [hp]

/-- The counting loop never duplicates keys. -/
theorem tally_nodup {α κ : Type} [DecidableEq κ] (p : α → Bool) (f : α → κ) :
    ∀ (xs : List α) (acc : List (κ × Nat)), (keysOf acc).Nodup →
      (keysOf (tally p f xs acc)).Nodup := by
  intro xs
  induction xs with
  | nil => intro acc h; exact h
  | cons x xs ih =>
      intro acc h
      rw [tally_cons]
      by_cases hp : p x
      · rw [if_pos hp]
        exact ih _ (nodup_keysOf_bump _ _ h)
      · rw [if_neg hp]
        exact ih _ h

/-- The counting loop only ever extends the key set. -/
theorem keysOf_subset_tally {α κ : Type} [DecidableEq κ] (p : α → Bool) (f : α → κ) :
    ∀ (xs : List α) (acc : List (κ × Nat)), keysOf acc ⊆ keysOf (tally p f xs acc) := by
  intro xs
  induction xs with
  | nil => intro acc; exact fun x hx => hx
  | cons x xs ih =>
      intro acc
      rw [tally_cons]
      by_cases hp : p x
      · rw [if_pos hp]
        exact fun y hy => ih _ (keysOf_subset_bump _ _ hy)
      · rw [if_neg hp]
        exact ih _

/-- A key with at least one filtered input is present after the loop. -/
theorem mem_tally_of_pos {α κ : Type} [DecidableEq κ] (p : α → Bool) (f : α → κ) :
    ∀ (xs : List α) (acc : List (κ × Nat)) (k : κ),
      0 < (xs.filter (fun d => p d && decide (f d = k))).length →
      k ∈ keysOf (tally p f xs acc) := by
  intro xs
  induction xs with
  | nil => intro acc k h; simp at h
  | cons x xs ih =>
      intro acc k h
      rw [tally_cons]
      by_cases hc : (p x && decide (f x = k)) = true
      · simp only [Bool.and_eq_true, decide_eq_true_eq] at hc
        obtain ⟨hp, hfk⟩ := hc
        rw [if_pos hp]
        refine keysOf_subset_tally p f xs _ ?_
        rw [← hfk]
        exact mem_keysOf_bump _ _
      · rw [List.filter_cons, if_neg hc] at h
        by_cases hp : p x
        · rw [if_pos hp]
          exact ih _ k h
        · rw [if_neg hp]
          exact ih _ k h

/-- All counts stay positive through the loop. -/
theorem tally_pos {α κ : Type} [DecidableEq κ] (p : α → Bool) (f : α → κ) :
    ∀ (xs : List α) (acc : List (κ × Nat)), (∀ kv ∈ acc, 0 < kv.2) →
      ∀ kv ∈ tally p f xs acc, 0 < kv.2 := by
  intro xs
  induction xs with
  | nil => intro acc h; exact h
  | cons x xs ih =>
      intro acc h
      rw [tally_cons]
      by_cases hp : p x
      · rw [if_pos hp]
        exact ih _ (pos_of_mem_bump _ _ h)
      · rw [if_neg hp]
        exact ih _ h

/-- Claim C7 counterexample: the weekly trend is returned in bucket
insertion order, not sorted ascending.  With completions on days 7 and 0
(in that order in the history, both inside a 4-week window ending on
day 7), the returned keys are `[7, 0]`, which is not ascending. -/
theorem weekly_trend_not_ascending :
    ((calculate_weekly_trend [7, 0] 4 7).map Prod.fst) = [7, 0] ∧
    ¬ List.Pairwise (fun a b : Int => a ≤ b)
        ((calculate_weekly_trend [7, 0] 4 7).map Prod.fst) := by
  decide

/-- Claim C7 (amended): for every history, window size and reference date,
the weekly trend has duplicate-free keys; a pair `(k, v)` occurs in it
exactly when `v` is positive and equals the number of completions inside
the window `[today - 7*num_weeks, today]` whose week-Monday is `k` (so
only weeks with at least one in-window completion appear, keyed by the
Monday of that week with the completion count of the week); and every key is a
Monday.  The ascending-order conjunct of the original claim is dropped: no
ordering of the returned entries is asserted. -/
theorem weekly_trend_spec (history : List Int) (num_weeks : Nat) (today : Int) :
    ((calculate_weekly_trend history num_weeks today).map Prod.fst).Nodup ∧
    (∀ k v, ((k, v) ∈ calculate_weekly_trend history num_weeks today) ↔
      (0 < v ∧ v = (history.filter (fun d =>
          decide (today - 7 * (num_weeks : Int) ≤ d ∧ d ≤ today) &&
          decide (week_start d = k))).length)) ∧
    (∀ k v, (k, v) ∈ calculate_weekly_trend history num_weeks today → k % 7 = 0) := by
  have hnd : (keysOf (calculate_weekly_trend history num_weeks today)).Nodup := by
    unfold calculate_weekly_trend
    exact tally_nodup _ _ history [] List.nodup_nil
  have hmem : ∀ k v, ((k, v) ∈ calculate_weekly_trend history num_weeks today) ↔
      (0 < v ∧ v = (history.filter (fun d =>
          decide (today - 7 * (num_weeks : Int) ≤ d ∧ d ≤ today) &&
          decide (week_start d = k))).length) := by
    intro k v
    constructor
    · intro hin
      have hv : lookupV (calculate_weekly_trend history num_weeks today) k = v :=
        lookupV_eq_of_mem _ _ _ hnd hin
      have hcount := tally_lookupV
        (fun d => decide (today - 7 * (num_weeks : Int) ≤ d ∧ d ≤ today))
        week_start history [] k
      have hpos : 0 < v := by
        refine tally_pos _ _ history [] ?_ (k, v) hin
        intro kv hkv
        simp at hkv
      refine ⟨hpos, ?_⟩
      rw [← hv]
      rw [show calculate_weekly_trend history num_weeks today =
        tally (fun d => decide (today - 7 * (num_weeks : Int) ≤ d ∧ d ≤ today))
          week_start history [] from rfl]
      rw [hcount]
      simp [lookupV]
    · rintro ⟨hpos, hval⟩
      have hk : k ∈ keysOf (calculate_weekly_trend history num_weeks today) := by
        unfold calculate_weekly_trend
        refine mem_tally_of_pos _ _ history [] k ?_
        exact hval ▸ hpos
      have hin := mem_of_mem_keysOf _ _ hk
      have hcount := tally_lookupV
        (fun d => decide (today - 7 * (num_weeks : Int) ≤ d ∧ d ≤ today))
        week_start history [] k
      have hv : lookupV (calculate_weekly_trend history num_weeks today) k = v := by
        rw [show calculate_weekly_trend history num_weeks today =
          tally (fun d => decide (today - 7 * (num_weeks : Int) ≤ d ∧ d ≤ today))
            week_start history [] from rfl]
        rw [hcount, hval]
        simp [lookupV]
      rw [← hv]
      exact hin
  refine ⟨hnd, hmem, ?_⟩
  intro k v hin
  have hval := ((hmem k v).mp hin).2
  have hpos := ((hmem k v).mp hin).1
  rw [hval] at hpos
  obtain ⟨d, hd⟩ := List.exists_mem_of_length_pos hpos
  have hd2 := (List.mem_filter.mp hd).2
  simp only [Bool.and_eq_true, decide_eq_true_eq] at hd2
  have hws : week_start d = k := hd2.2
  unfold week_start weekday at hws
  omega

/-- Claim C7 witness: a single completion on day 0 with reference day 7
produces the single bucket `(0, 1)`, whose key is a Monday. -/
theorem weekly_trend_spec_witness :
    ((0 : Int), 1) ∈ calculate_weekly_trend [0] 4 7 ∧ (0 : Int) % 7 = 0 := by
  have hs := weekly_trend_spec [0] 4 7
  have hmem : ((0 : Int), 1) ∈ calculate_weekly_trend [0] 4 7 :=
    (hs.2.1 0 1).mpr ⟨by decide, by decide⟩
  exact ⟨hmem, hs.2.2 0 1 hmem⟩

/-!
Calendar dates for the monthly aggregator.  `calculate_monthly_trend` is
the one place where the source manipulates year/month structure
(`date(d.year, d.month, 1)`, `relativedelta(months=...)`), so dates are
embedded there as explicit year/month/day triples; `datetime.date`
comparison is lexicographic on those fields.
-/

/-- A calendar date `datetime.date(year, month, day)`. -/
structure CDate where
  year : Int
  month : Int
  day : Int
deriving DecidableEq

/-- Python `date` comparison `<=`: lexicographic on (year, month, day). -/
def CDate.le (a b : CDate) : Bool :=
  decide (a.year < b.year ∨
    (a.year = b.year ∧ (a.month < b.month ∨ (a.month = b.month ∧ a.day ≤ b.day))))

/-- Python `date` comparison `<`: lexicographic on (year, month, day). -/
def CDate.lt (a b : CDate) : Bool :=
  decide (a.year < b.year ∨
    (a.year = b.year ∧ (a.month < b.month ∨ (a.month = b.month ∧ a.day < b.day))))

/-- `date(d.year, d.month, 1)`, the first day of the month of `d`
(src/analyse.py lines 77 and 91). -/
def monthStart (d : CDate) : CDate := ⟨d.year, d.month, 1⟩

/-- Months since month 0 of year 0; the linear scale on which one
`relativedelta(months=1)` step moves by exactly one. -/
def monthIndex (d : CDate) : Int := 12 * d.year + (d.month - 1)

/-- `d + relativedelta(months=1)` on a first-of-month date: the day (1)
never needs clamping, so only year/month move. -/
def addOneMonth (d : CDate) : CDate :=
  if d.month = 12 then ⟨d.year + 1, 1, d.day⟩ else ⟨d.year, d.month + 1, d.day⟩

/-- `d - relativedelta(months=1)` on a first-of-month date. -/
def subOneMonth (d : CDate) : CDate :=
  if d.month = 1 then ⟨d.year - 1, 12, d.day⟩ else ⟨d.year, d.month - 1, d.day⟩

/-- `d - relativedelta(months=k)` on a first-of-month date, as `k` single
month steps (src/analyse.py line 78). -/
def subMonths : Nat → CDate → CDate
  | 0, d => d
  | k + 1, d => subMonths k (subOneMonth d)

/-- The seeding loop of src/analyse.py lines 83–87
(`while current_month_start < first_day_current_month +
relativedelta(months=1): ... current_month_start += relativedelta(months=1)`),
unrolled: starting at `start_date`, which lies `num_months` single-month
steps before the loop bound minus one month, it runs exactly
`num_months + 1` iterations, emitting one month start per iteration in
ascending order. -/
def seedMonths : Nat → CDate → List CDate
  | 0, _ => []
  | k + 1, cur => cur :: seedMonths k (addOneMonth cur)

/-- `Analyse.calculate_monthly_trend`, src/analyse.py lines 66–95, for an
existing habit: every month start from `num_months` months before the
reference month up to the reference month is pre-seeded to 0; completions
inside `[start_date, end_date]` whose month start is an expected month are
counted into the bucket of their month; the result is `dict(sorted(...))`,
i.e. sorted ascending by key (keys are distinct, so sorting the
(key, value) items is sorting by key). -/
def calculate_monthly_trend (history : List CDate) (num_months : Nat)
    (endDate : CDate) : List (CDate × Nat) :=
  let first_day_current_month := monthStart endDate
  let start_date := subMonths num_months first_day_current_month
  let expected_month_starts := seedMonths (num_months + 1) start_date
  let seeded : List (CDate × Nat) := expected_month_starts.map (fun m => (m, 0))
  let counted := tally
    (fun d => (CDate.le start_date d && CDate.le d endDate) &&
      decide (monthStart d ∈ expected_month_starts))
    monthStart history seeded
  counted.mergeSort (fun a b => CDate.le a.1 b.1)

/-- First-of-month dates with a real month number; every date the seeding
loop visits satisfies this. -/
def firstValid (d : CDate) : Prop := d.day = 1 ∧ 1 ≤ d.month ∧ d.month ≤ 12

/-- One month forward preserves validity. -/
theorem firstValid_addOneMonth (d : CDate) (h : firstValid d) :
    firstValid (addOneMonth d) := by
  obtain ⟨hd, h1, h2⟩ := h
  unfold addOneMonth firstValid
  split_ifs with hm <;> dsimp only <;> exact ⟨hd, by omega, by omega⟩

/-- One month back preserves validity. -/
theorem firstValid_subOneMonth (d : CDate) (h : firstValid d) :
    firstValid (subOneMonth d) := by
  obtain ⟨hd, h1, h2⟩ := h
  unfold subOneMonth firstValid
  split_ifs with hm <;> dsimp only <;> exact ⟨hd, by omega, by omega⟩

/-- One month forward advances the month index by one. -/
theorem monthIndex_addOneMonth (d : CDate) (h : firstValid d) :
    monthIndex (addOneMonth d) = monthIndex d + 1 := by
  obtain ⟨hd, h1, h2⟩ := h
  unfold addOneMonth monthIndex
  split_ifs with hm <;> dsimp only <;> omega

/-- One month back moves the month index back by one. -/
theorem monthIndex_subOneMonth (d : CDate) (h : firstValid d) :
    monthIndex (subOneMonth d) = monthIndex d - 1 := by
  obtain ⟨hd, h1, h2⟩ := h
  unfold subOneMonth monthIndex
  split_ifs with hm <;> dsimp only <;> omega

/-- `k` months back: validity and month index. -/
theorem subMonths_firstValid (k : Nat) :
    ∀ d : CDate, firstValid d →
      firstValid (subMonths k d) ∧
      monthIndex (subMonths k d) = monthIndex d - k := by
  induction k with
  | zero => intro d h; exact ⟨h, by simp [subMonths]⟩
  | succ k ih =>
      intro d h
      have hs := firstValid_subOneMonth d h
      have hmi := monthIndex_subOneMonth d h
      obtain ⟨hv, hm⟩ := ih (subOneMonth d) hs
      refine ⟨hv, ?_⟩
      rw [show subMonths (k + 1) d = subMonths k (subOneMonth d) from rfl, hm, hmi]
      push_cast
      omega

/-- Strict month-index order gives strict date order on valid
first-of-month dates. -/
theorem cdLT_of_monthIndex_lt (a b : CDate) (ha : firstValid a) (hb : firstValid b)
    (h : monthIndex a < monthIndex b) : CDate.lt a b = true := by
  obtain ⟨ha1, ha2, ha3⟩ := ha
  obtain ⟨hb1, hb2, hb3⟩ := hb
  unfold monthIndex at h
  unfold CDate.lt
  exact decide_eq_true (by omega)

/-- A strictly smaller date is weakly smaller. -/
theorem cdLE_of_cdLT (a b : CDate) (h : CDate.lt a b = true) : CDate.le a b = true := by
  unfold CDate.lt at h
  unfold CDate.le
  have h2 := of_decide_eq_true h
  exact decide_eq_true (by omega)

/-- A strictly smaller date is distinct. -/
theorem ne_of_cdLT (a b : CDate) (h : CDate.lt a b = true) : a ≠ b := by
  intro he
  subst he
  unfold CDate.lt at h
  have h2 := of_decide_eq_true h
  omega

/-- The seeding loop emits one entry per iteration. -/
theorem seedMonths_length (k : Nat) : ∀ d : CDate, (seedMonths k d).length = k := by
  induction k with
  | zero => intro d; rfl
  | succ k ih =>
      intro d
      rw [show seedMonths (k + 1) d = d :: seedMonths k (addOneMonth d) from rfl]
      simp [ih]

/-- The `i`-th seeded month lies `i` months after the start and is a first
of month. -/
theorem seedMonths_get (k : Nat) :
    ∀ (d : CDate) (i : Nat) (hi : i < (seedMonths k d).length), firstValid d →
      monthIndex ((seedMonths k d).get ⟨i, hi⟩) = monthIndex d + i ∧
      ((seedMonths k d).get ⟨i, hi⟩).day = 1 := by
  induction k with
  | zero =>
      intro d i hi _
      rw [seedMonths_length 0 d] at hi
      exact absurd hi (Nat.not_lt_zero i)
  | succ k ih =>
      intro d i hi hv
      cases i with
      | zero =>
          refine ⟨?_, hv.1⟩
          show monthIndex d = monthIndex d + ((0 : Nat) : Int)
          simp
      | succ i =>
          have hi2 : i < (seedMonths k (addOneMonth d)).length := by
            rw [seedMonths_length] at hi ⊢
            omega
          have hrec := ih (addOneMonth d) i hi2 (firstValid_addOneMonth d hv)
          refine ⟨?_, hrec.2⟩
          show monthIndex ((seedMonths k (addOneMonth d)).get ⟨i, hi2⟩) =
            monthIndex d + ((i + 1 : Nat) : Int)
          rw [hrec.1, monthIndex_addOneMonth d hv]
          push_cast
          omega

/-- Every seeded month is a valid first of month, no earlier than the
start. -/
theorem seedMonths_mem (k : Nat) :
    ∀ (d x : CDate), firstValid d → x ∈ seedMonths k d →
      firstValid x ∧ monthIndex d ≤ monthIndex x := by
  induction k with
  | zero => intro d x _ hx; simp [seedMonths] at hx
  | succ k ih =>
      intro d x hv hx
      rw [show seedMonths (k + 1) d = d :: seedMonths k (addOneMonth d) from rfl] at hx
      rcases List.mem_cons.mp hx with he | htl
      · subst he
        exact ⟨hv, le_refl _⟩
      · obtain ⟨hxv, hxm⟩ := ih (addOneMonth d) x (firstValid_addOneMonth d hv) htl
        rw [monthIndex_addOneMonth d hv] at hxm
        exact ⟨hxv, by omega⟩

/-- The seeded months are strictly ascending. -/
theorem seedMonths_pairwise (k : Nat) :
    ∀ d : CDate, firstValid d →
      List.Pairwise (fun a b => CDate.lt a b = true) (seedMonths k d) := by
  induction k with
  | zero => intro d _; exact List.Pairwise.nil
  | succ k ih =>
      intro d hv
      rw [show seedMonths (k + 1) d = d :: seedMonths k (addOneMonth d) from rfl]
      refine List.Pairwise.cons ?_ (ih (addOneMonth d) (firstValid_addOneMonth d hv))
      intro x hx
      obtain ⟨hxv, hxm⟩ := seedMonths_mem k (addOneMonth d) x
        (firstValid_addOneMonth d hv) hx
      refine cdLT_of_monthIndex_lt d x hv hxv ?_
      rw [monthIndex_addOneMonth d hv] at hxm
      omega

/-- Bumping a present key leaves the key list unchanged. -/
theorem keysOf_bump_mem {κ : Type} [DecidableEq κ] (l : List (κ × Nat)) (k : κ)
    (h : k ∈ keysOf l) : keysOf (bump l k) = keysOf l := by
  rw [keysOf_bump, if_pos h]

/-- When every counted key is already present, the loop leaves the key
list unchanged (the situation of the dense monthly aggregator). -/
theorem tally_keysOf_eq {α κ : Type} [DecidableEq κ] (p : α → Bool) (f : α → κ) :
    ∀ (xs : List α) (acc : List (κ × Nat)),
      (∀ x ∈ xs, p x = true → f x ∈ keysOf acc) →
      keysOf (tally p f xs acc) = keysOf acc := by
  intro xs
  induction xs with
  | nil => intro acc _; rfl
  | cons x xs ih =>
      intro acc hmem
      rw [tally_cons]
      by_cases hp : p x
      · rw [if_pos hp]
        have hfx : f x ∈ keysOf acc := hmem x (List.mem_cons_self _ _) hp
        have hkeys : keysOf (bump acc (f x)) = keysOf acc := keysOf_bump_mem _ _ hfx
        have hrec := ih (bump acc (f x)) (fun y hy hpy => by
          rw [hkeys]
          exact hmem y (List.mem_cons_of_mem _ hy) hpy)
        rw [hrec, hkeys]
      · rw [if_neg hp]
        exact ih acc (fun y hy hpy => hmem y (List.mem_cons_of_mem _ hy) hpy)

/-- A freshly seeded dict stores 0 everywhere. -/
theorem lookupV_zeros {κ : Type} [DecidableEq κ] (ms : List κ) (k : κ) :
    lookupV (ms.map (fun m => (m, 0))) k = 0 := by
  induction ms with
  | nil => rfl
  | cons m ms ih =>
      by_cases h : m = k
      · simp [lookupV, h]
      · simp [lookupV, h, ih]

/-- The keys of a freshly seeded dict are the seeds. -/
theorem keysOf_zeros {κ : Type} (ms : List κ) :
    keysOf (ms.map (fun m => (m, 0))) = ms := by
  unfold keysOf
  rw [List.map_map]
  exact List.map_id ms

/-- Counting over a pre-seeded dict whose seeds cover every counted key:
the keys stay exactly the seeds (in order), and the value of each entry is the
number of counted inputs mapping to its key. -/
theorem tally_seeded_spec {α κ : Type} [DecidableEq κ] (p : α → Bool) (f : α → κ)
    (history : List α) (expected : List κ)
    (hnd : expected.Nodup)
    (hmem : ∀ x, p x = true → f x ∈ expected) :
    keysOf (tally p f history (expected.map (fun m => (m, 0)))) = expected ∧
    ∀ kv ∈ tally p f history (expected.map (fun m => (m, 0))),
      kv.2 = (history.filter (fun d => p d && decide (f d = kv.1))).length := by
  have hk0 : keysOf (expected.map (fun m => (m, 0))) = expected := keysOf_zeros expected
  have hkeys : keysOf (tally p f history (expected.map (fun m => (m, 0)))) = expected := by
    rw [tally_keysOf_eq p f history _ (fun x _ hpx => by rw [hk0]; exact hmem x hpx), hk0]
  refine ⟨hkeys, ?_⟩
  intro kv hkv
  obtain ⟨k, v⟩ := kv
  have hndk : (keysOf (tally p f history (expected.map (fun m => (m, 0))))).Nodup := by
    rw [hkeys]
    exact hnd
  have hlv := lookupV_eq_of_mem _ _ _ hndk hkv
  have hcnt := tally_lookupV p f history (expected.map (fun m => (m, 0))) k
  rw [lookupV_zeros] at hcnt
  dsimp only
  omega

/-- Claim C6: for every completion history, every `num_months ≥ 0` and
every (valid) reference date, the monthly trend has exactly
`num_months + 1` entries, one per calendar month from `num_months` months
before the reference month through the reference month (each keyed by the
first day of its month, month indices consecutive), ordered strictly ascending;
all these months appear independently of the history (they are pre-seeded
to 0), and the value of each entry counts exactly the completions lying inside
the window `[start_date, end_date]` whose month start is that key — a
completion outside the window bounds is never counted. -/
theorem monthly_trend_spec (history : List CDate) (num_months : Nat) (endDate : CDate)
    (hm1 : 1 ≤ endDate.month) (hm2 : endDate.month ≤ 12) :
    (calculate_monthly_trend history num_months endDate).length = num_months + 1 ∧
    (calculate_monthly_trend history num_months endDate).map Prod.fst =
      seedMonths (num_months + 1) (subMonths num_months (monthStart endDate)) ∧
    (∀ i (hi : i <
        ((calculate_monthly_trend history num_months endDate).map Prod.fst).length),
      monthIndex (((calculate_monthly_trend history num_months endDate).map
          Prod.fst).get ⟨i, hi⟩) =
        monthIndex (monthStart endDate) - num_months + i ∧
      (((calculate_monthly_trend history num_months endDate).map
          Prod.fst).get ⟨i, hi⟩).day = 1) ∧
    List.Pairwise (fun a b => CDate.lt a b = true)
      ((calculate_monthly_trend history num_months endDate).map Prod.fst) ∧
    (∀ kv, kv ∈ calculate_monthly_trend history num_months endDate →
      kv.2 = (history.filter (fun d =>
        (CDate.le (subMonths num_months (monthStart endDate)) d &&
          CDate.le d endDate) &&
        decide (monthStart d = kv.1))).length) := by
  have hfdv : firstValid (monthStart endDate) := ⟨rfl, hm1, hm2⟩
  obtain ⟨hsv, hsmi⟩ := subMonths_firstValid num_months (monthStart endDate) hfdv
  have hunfold : calculate_monthly_trend history num_months endDate =
      (tally
        (fun d => (CDate.le (subMonths num_months (monthStart endDate)) d &&
            CDate.le d endDate) &&
          decide (monthStart d ∈ seedMonths (num_months + 1)
            (subMonths num_months (monthStart endDate))))
        monthStart history
        ((seedMonths (num_months + 1)
          (subMonths num_months (monthStart endDate))).map (fun m => (m, 0)))).mergeSort
        (fun a b => CDate.le a.1 b.1) := rfl
  rw [hunfold]
  set start := subMonths num_months (monthStart endDate) with hstart
  set ex := seedMonths (num_months + 1) start with hex
  set guard := fun d => (CDate.le start d && CDate.le d endDate) &&
    decide (monthStart d ∈ ex) with hguard
  set counted := tally guard monthStart history (ex.map (fun m => (m, 0))) with hcounted
  have hexp_pair : List.Pairwise (fun a b => CDate.lt a b = true) ex :=
    seedMonths_pairwise (num_months + 1) start hsv
  have hexp_nodup : ex.Nodup := hexp_pair.imp (fun hab => ne_of_cdLT _ _ hab)
  have hmemg : ∀ x, guard x = true → monthStart x ∈ ex := by
    intro x hx
    rw [hguard] at hx
    simp only [Bool.and_eq_true, decide_eq_true_eq] at hx
    exact hx.2
  obtain ⟨hkeys0, hvals0⟩ := tally_seeded_spec guard monthStart history ex hexp_nodup hmemg
  rw [← hcounted] at hkeys0 hvals0
  have hmapfst : counted.map Prod.fst = ex := hkeys0
  have hpair_counted :
      List.Pairwise (fun a b : CDate × Nat => CDate.le a.1 b.1 = true) counted := by
    have h1 : List.Pairwise (fun a b => CDate.lt a b = true) (counted.map Prod.fst) := by
      rw [hmapfst]
      exact hexp_pair
    exact (List.pairwise_map.mp h1).imp (fun hab => cdLE_of_cdLT _ _ hab)
  rw [List.mergeSort_of_sorted hpair_counted]
  refine ⟨?_, hmapfst, ?_, ?_, ?_⟩
  · have h3 : (counted.map Prod.fst).length = counted.length := List.length_map _ _
    rw [← h3, hmapfst, hex, seedMonths_length]
  · rw [hmapfst]
    intro i hi
    have hg := seedMonths_get (num_months + 1) start i (by rw [← hex]; exact hi) hsv
    have h1 := hg.1
    rw [hsmi] at h1
    exact ⟨h1, hg.2⟩
  · rw [hmapfst]
    exact hexp_pair
  · intro kv hkv
    have hv := hvals0 kv hkv
    rw [hv]
    congr 1
    apply List.filter_congr
    intro d _
    have hk_ex : kv.1 ∈ ex := by
      rw [← hmapfst]
      exact List.mem_map_of_mem Prod.fst hkv
    rw [hguard]
    by_cases hdk : monthStart d = kv.1
    · simp [hdk, hk_ex]
    · simp [hdk]

/-- Claim C6 witness: three months back from mid-April 2025 with an empty
history gives four month buckets (the zero-completion scenario of the spec). -/
theorem monthly_trend_spec_witness :
    (calculate_monthly_trend [] 3 ⟨2025, 4, 15⟩).length = 3 + 1 ∧
    (calculate_monthly_trend [] 3 ⟨2025, 4, 15⟩).map Prod.fst =
      seedMonths (3 + 1) (subMonths 3 (monthStart ⟨2025, 4, 15⟩)) := by
  have hs := monthly_trend_spec [] 3 ⟨2025, 4, 15⟩ (by decide) (by decide)
  exact ⟨hs.1, hs.2.1⟩
